import Mathlib

/-!
# Netlink attribute encoder (`net/message_linux.go`)

A shallow embedding of the three attribute encoders `Int32msg`, `Bytemsg` and
`Boolmsg` of package `net`, and the properties of their wire format.

Modelling conventions

* Go's `int` is embedded as `Int`.  The only `int` arithmetic of the file is
  `HDRLEN + len(Value) + 1` and the rounding `(l + 3) &^ 3`.  The length of a
  `[]byte` held in memory is bounded by the address space and stays far below
  `2^63 - 8`, so neither expression can wrap and the mathematical integers are
  exact (`Bytemsg_Len_no_wrap`).  The narrowing conversion `uint16(l)` does lose
  bits and is embedded with its explicit reduction modulo `2^16`.
* The mask `x & ^y` is `Int.land x (~~~ y)`, bitwise on two's-complement
  integers as in Go.
* `uint16`, `uint32` and `byte` are `Fin 65536`, `Fin 4294967296` and
  `Fin 256`.
* A byte slice is a `List byte`.  `make` returns a zero-filled list; every
  slice expression, index and early bounds check of the source is a test that
  yields `none` (a run-time panic) when it fails, so `Serialize` returns an
  `Option`.
* `nl.NativeEndian()` is the host's byte order, one of the two orders of
  `encoding/binary`; it is the parameter `native`.
-/

namespace net

/-! ## Machine types -/

/-- Go `uint16`. -/
abbrev uint16 := Fin 65536

/-- Go `uint32`. -/
abbrev uint32 := Fin 4294967296

/-- Go `byte` (`uint8`). -/
abbrev byte := Fin 256

/-- Go conversion `byte(x)` of an unsigned value: the low eight bits. -/
def byte.ofNat (x : Nat) : byte := ⟨x % 256, Nat.mod_lt _ (by decide)⟩

/-- Go conversion `uint16(x)` of an `int`: the low sixteen bits. -/
def uint16.ofInt (x : Int) : uint16 := ⟨(x % 65536).toNat, by omega⟩

/-- Go conversion `uint16(x)` of an unsigned value: the low sixteen bits. -/
def uint16.ofNat (x : Nat) : uint16 := ⟨x % 65536, Nat.mod_lt _ (by decide)⟩

/-- Go conversion `uint32(x)` of an unsigned value: the low thirty-two bits. -/
def uint32.ofNat (x : Nat) : uint32 := ⟨x % 4294967296, Nat.mod_lt _ (by decide)⟩

/-! ## Slices -/

/-- Go `make([]byte, n)`: a zero-filled slice of length and capacity `n`;
panics on a negative length. -/
def make (n : Int) : Option (List byte) :=
  if n < 0 then none else some (List.replicate n.toNat 0)

/-- Slice expression `buf[lo:hi]` read as a value: the bytes of the window, or
`none` when the bounds check `lo ≤ hi ≤ cap(buf)` fails. -/
def slice (buf : List byte) (lo hi : Nat) : Option (List byte) :=
  if lo ≤ hi ∧ hi ≤ buf.length then some ((buf.drop lo).take (hi - lo)) else none

/-- Run the in-place update `f` on the window `buf[lo:hi]`, which shares its
backing array with `buf`: the result is `buf` with the window replaced by what
`f` leaves in it.  `none` when the slice expression is out of range or `f`
panics. -/
def withSlice (buf : List byte) (lo hi : Nat) (f : List byte → Option (List byte)) :
    Option (List byte) :=
  (slice buf lo hi).bind fun w => (f w).map fun w' => buf.take lo ++ w' ++ buf.drop hi

/-- Index assignment `buf[i] = v`; panics when `i` is out of range. -/
def setIndex (buf : List byte) (i : Nat) (v : byte) : Option (List byte) :=
  if i < buf.length then some (buf.set i v) else none

/-- Index expression `buf[i]`; panics when `i` is out of range. -/
def index (buf : List byte) (i : Nat) : Option byte :=
  if h : i < buf.length then some (buf.get ⟨i, h⟩) else none

/-- Go builtin `copy(dst, src)`: overwrites the first `min(len(dst), len(src))`
bytes of `dst` with those of `src`; never panics. -/
def copy (dst src : List byte) : List byte :=
  src.take dst.length ++ dst.drop src.length

/-! ## Byte order -/

/-- Modelled from the spec: the native byte order ("the byte order of the host
CPU"), which the source obtains from `nl.NativeEndian()` of the netlink
library; it is `binary.LittleEndian` or `binary.BigEndian` of Go's
`encoding/binary`. -/
inductive ByteOrder where
  | LittleEndian
  | BigEndian
  deriving DecidableEq

/-- Modelled from the spec: `ByteOrder.PutUint16(b, v)` of `encoding/binary`,
writing the 16-bit field `v` into `b[0:2]` after the early bounds check
`_ = b[1]`. -/
def ByteOrder.PutUint16 (o : ByteOrder) (b : List byte) (v : uint16) : Option (List byte) :=
  if 1 < b.length then
    match o with
    | .LittleEndian => some ((b.set 0 (byte.ofNat v.val)).set 1 (byte.ofNat (v.val >>> 8)))
    | .BigEndian => some ((b.set 0 (byte.ofNat (v.val >>> 8))).set 1 (byte.ofNat v.val))
  else none

/-- Modelled from the spec: `ByteOrder.PutUint32(b, v)` of `encoding/binary`,
writing the 32-bit field `v` into `b[0:4]` after the early bounds check
`_ = b[3]`. -/
def ByteOrder.PutUint32 (o : ByteOrder) (b : List byte) (v : uint32) : Option (List byte) :=
  if 3 < b.length then
    match o with
    | .LittleEndian =>
      some ((((b.set 0 (byte.ofNat v.val)).set 1 (byte.ofNat (v.val >>> 8))).set 2
        (byte.ofNat (v.val >>> 16))).set 3 (byte.ofNat (v.val >>> 24)))
    | .BigEndian =>
      some ((((b.set 0 (byte.ofNat (v.val >>> 24))).set 1 (byte.ofNat (v.val >>> 16))).set 2
        (byte.ofNat (v.val >>> 8))).set 3 (byte.ofNat v.val))
  else none

/-- Modelled from the spec: `ByteOrder.Uint16(b)` of `encoding/binary`, the
decoder of a 16-bit field (native-endian decoding of the testable properties). -/
def ByteOrder.Uint16 (o : ByteOrder) (b : List byte) : Option uint16 :=
  match o, b with
  | .LittleEndian, b0 :: b1 :: _ => some (uint16.ofNat (b0.val ||| b1.val <<< 8))
  | .BigEndian, b0 :: b1 :: _ => some (uint16.ofNat (b1.val ||| b0.val <<< 8))
  | _, _ => none

/-- Modelled from the spec: `ByteOrder.Uint32(b)` of `encoding/binary`, the
decoder of a 32-bit field. -/
def ByteOrder.Uint32 (o : ByteOrder) (b : List byte) : Option uint32 :=
  match o, b with
  | .LittleEndian, b0 :: b1 :: b2 :: b3 :: _ =>
    some (uint32.ofNat (b0.val ||| b1.val <<< 8 ||| b2.val <<< 16 ||| b3.val <<< 24))
  | .BigEndian, b0 :: b1 :: b2 :: b3 :: _ =>
    some (uint32.ofNat (b3.val ||| b2.val <<< 8 ||| b1.val <<< 16 ||| b0.val <<< 24))
  | _, _ => none

/-! ## Constants -/

/-- Modelled from the spec: `syscall.SizeofNlAttr`, the size of the
length+type header of a netlink attribute (Go's `syscall` package on Linux). -/
def syscall.SizeofNlAttr : Int := 4

/-- Modelled from the spec: `syscall.NLA_ALIGNTO`, the netlink attribute
alignment unit, 4 bytes (Go's `syscall` package on Linux). -/
def syscall.NLA_ALIGNTO : Int := 4

/-- Constant `syscall_NLA_HDRLEN`: the header size rounded up to the alignment unit. -/
def syscall_NLA_HDRLEN : Int :=
  Int.land (syscall.SizeofNlAttr + syscall.NLA_ALIGNTO - 1) (~~~ (syscall.NLA_ALIGNTO - 1))

/-- Message type `InitMsg`. -/
def InitMsg : uint16 := 62000

/-- Attribute tag `CloneFlagsAttr`. -/
def CloneFlagsAttr : uint16 := 27281

/-- Attribute tag `ConsolePathAttr`. -/
def ConsolePathAttr : uint16 := 27282

/-- Attribute tag `NsPathsAttr`. -/
def NsPathsAttr : uint16 := 27283

/-- Attribute tag `UidmapAttr`. -/
def UidmapAttr : uint16 := 27284

/-- Attribute tag `GidmapAttr`. -/
def GidmapAttr : uint16 := 27285

/-- Attribute tag `SetgroupAttr`. -/
def SetgroupAttr : uint16 := 27286

/-! ## Int32msg -/

/-- Struct `Int32msg`: an attribute carrying a 32-bit value. -/
structure Int32msg where
  Type_ : uint16
  Value : uint32
  deriving DecidableEq

/-- Method `Int32msg.Len`: header and a four-byte value. -/
def Int32msg.Len (_msg : Int32msg) : Int :=
  syscall_NLA_HDRLEN + 4

/-- Method `Int32msg.Serialize`; `native` is the result of `nl.NativeEndian()`. -/
def Int32msg.Serialize (native : ByteOrder) (msg : Int32msg) : Option (List byte) := do
  let buf ← make msg.Len
  let buf ← withSlice buf 0 2 fun b => native.PutUint16 b (uint16.ofInt msg.Len)
  let buf ← withSlice buf 2 4 fun b => native.PutUint16 b msg.Type_
  let buf ← withSlice buf 4 8 fun b => native.PutUint32 b msg.Value
  return buf

/-! ## Bytemsg -/

/-- Struct `Bytemsg`: an attribute carrying a byte string. -/
structure Bytemsg where
  Type_ : uint16
  Value : List byte
  deriving DecidableEq

/-- Method `Bytemsg.Len`: header, value and the null terminator. -/
def Bytemsg.Len (msg : Bytemsg) : Int :=
  syscall_NLA_HDRLEN + (msg.Value.length : Int) + 1

/-- Method `Bytemsg.Serialize`; `native` is the result of `nl.NativeEndian()`.
The buffer is allocated with `l` rounded up by the mask expression, the header
is written through `buf[0:2]` and `buf[2:4]`, and the value is copied into
`buf[4:]`. -/
def Bytemsg.Serialize (native : ByteOrder) (msg : Bytemsg) : Option (List byte) := do
  let l := msg.Len
  let buf ← make (Int.land (l + syscall.NLA_ALIGNTO - 1) (~~~ (syscall.NLA_ALIGNTO - 1)))
  let buf ← withSlice buf 0 2 fun b => native.PutUint16 b (uint16.ofInt l)
  let buf ← withSlice buf 2 4 fun b => native.PutUint16 b msg.Type_
  let buf ← withSlice buf 4 buf.length fun b => some (copy b msg.Value)
  return buf

/-! ## Boolmsg -/

/-- Struct `Boolmsg`: an attribute carrying a flag. -/
structure Boolmsg where
  Type_ : uint16
  Value : Bool
  deriving DecidableEq

/-- Method `Boolmsg.Len`: header and one byte. -/
def Boolmsg.Len (_msg : Boolmsg) : Int :=
  syscall_NLA_HDRLEN + 1

/-- Method `Boolmsg.Serialize`; `native` is the result of `nl.NativeEndian()`. -/
def Boolmsg.Serialize (native : ByteOrder) (msg : Boolmsg) : Option (List byte) := do
  let buf ← make msg.Len
  let buf ← withSlice buf 0 2 fun b => native.PutUint16 b (uint16.ofInt msg.Len)
  let buf ← withSlice buf 2 4 fun b => native.PutUint16 b msg.Type_
  let buf ← if msg.Value then setIndex buf 4 1 else setIndex buf 4 0
  return buf

/-! ## Wire-format vocabulary used by the statements -/

/-- The two bytes a 16-bit field occupies in byte order `o`. -/
def enc16 (o : ByteOrder) (v : uint16) : List byte :=
  match o with
  | .LittleEndian => [byte.ofNat v.val, byte.ofNat (v.val >>> 8)]
  | .BigEndian => [byte.ofNat (v.val >>> 8), byte.ofNat v.val]

/-- The four bytes a 32-bit field occupies in byte order `o`. -/
def enc32 (o : ByteOrder) (v : uint32) : List byte :=
  match o with
  | .LittleEndian =>
    [byte.ofNat v.val, byte.ofNat (v.val >>> 8), byte.ofNat (v.val >>> 16),
      byte.ofNat (v.val >>> 24)]
  | .BigEndian =>
    [byte.ofNat (v.val >>> 24), byte.ofNat (v.val >>> 16), byte.ofNat (v.val >>> 8),
      byte.ofNat v.val]

/-- Length of the buffer `Bytemsg.Serialize` allocates for a value of `n` bytes. -/
def paddedLen (n : Nat) : Nat := (n + 5 + 3) / 4 * 4

/-- The 16-bit field stored in `buf[lo:hi]`, decoded in byte order `o`. -/
def field16 (o : ByteOrder) (buf : List byte) (lo hi : Nat) : Option Int :=
  ((slice buf lo hi).bind o.Uint16).map fun x => (x.val : Int)

/-- The 32-bit field stored in `buf[lo:hi]`, decoded in byte order `o`. -/
def field32 (o : ByteOrder) (buf : List byte) (lo hi : Nat) : Option Int :=
  ((slice buf lo hi).bind o.Uint32).map fun x => (x.val : Int)

/-- The bytes of the path `/ns/net` (ASCII codes of `/`, `n`, `s`, `/`, `n`, `e`, `t`). -/
def nsNetPath : List byte := [47, 110, 115, 47, 110, 101, 116]

/-- Serialize one attribute of the two kinds whose buffers are meant to be
concatenated on alignment boundaries: an `Int32msg` or a `Bytemsg`. -/
def serializeAttr (native : ByteOrder) : Int32msg ⊕ Bytemsg → Option (List byte)
  | .inl m => m.Serialize native
  | .inr m => m.Serialize native

/-- Serialize a list of attributes, one buffer per attribute, in order; `none`
when one of the calls panics. -/
def serializeAll (native : ByteOrder) : List (Int32msg ⊕ Bytemsg) → Option (List (List byte))
  | [] => some []
  | m :: ms => do
    let buf ← serializeAttr native m
    let bufs ← serializeAll native ms
    return buf :: bufs

/-- Offset at which the buffer number `k` (counting from 0) starts in the
concatenation of `bufs`: the total length of the buffers before it. -/
def startOffset (bufs : List (List byte)) (k : Nat) : Nat :=
  ((bufs.take k).flatten).length

/-- Serialize one attribute of any of the three kinds: an `Int32msg`, a
`Bytemsg` or a `Boolmsg`. -/
def serializeAny (native : ByteOrder) : (Int32msg ⊕ Bytemsg) ⊕ Boolmsg → Option (List byte)
  | .inl m => serializeAttr native m
  | .inr m => m.Serialize native

/-- Serialize a list of attributes of the three kinds, one buffer per attribute,
in order; `none` when one of the calls panics. -/
def serializeAnyAll (native : ByteOrder) :
    List ((Int32msg ⊕ Bytemsg) ⊕ Boolmsg) → Option (List (List byte))
  | [] => some []
  | m :: ms => do
    let buf ← serializeAny native m
    let bufs ← serializeAnyAll native ms
    return buf :: bufs

/-- Number of `Boolmsg` attributes among the first `k` attributes of `msgs`,
the ones that come before attribute number `k`. -/
def boolsBefore (msgs : List ((Int32msg ⊕ Bytemsg) ⊕ Boolmsg)) (k : Nat) : Nat :=
  (msgs.take k).countP Sum.isRight

/-! ## Arithmetic of the alignment mask -/

theorem ldiff_three (m : Nat) : Nat.ldiff m 3 = m / 4 * 4 := by
  apply Nat.eq_of_testBit_eq
  intro k
  rw [Nat.testBit_ldiff]
  have h3 : Nat.testBit 3 k = decide (k < 2) := by
    have := @Nat.testBit_two_pow_sub_one 2 k
    simpa using this
  rw [h3, show m / 4 * 4 = 2 ^ 2 * (m >>> 2) by rw [Nat.shiftRight_eq_div_pow]; ring,
    Nat.testBit_mul_pow_two, Nat.testBit_shiftRight]
  by_cases hk : k < 2
  · simp [hk]
  · have : 2 ≤ k := by omega
    simp [hk, this]

theorem land_not_three (m : Nat) : Int.land (m : Int) (~~~ 3) = ((m / 4 * 4 : Nat) : Int) := by
  show ((Nat.ldiff m 3 : Nat) : Int) = _
  rw [ldiff_three]

theorem HDRLEN_eq : syscall_NLA_HDRLEN = 4 := by
  have := land_not_three 7
  simpa [syscall_NLA_HDRLEN, syscall.SizeofNlAttr, syscall.NLA_ALIGNTO] using this

theorem HDRLEN_toNat : syscall_NLA_HDRLEN.toNat = 4 := by
  rw [HDRLEN_eq]; rfl

theorem land_align (n : Nat) :
    Int.land ((n : Int) + syscall.NLA_ALIGNTO - 1) (~~~ (syscall.NLA_ALIGNTO - 1))
      = (((n + 3) / 4 * 4 : Nat) : Int) := by
  have := land_not_three (n + 3)
  simpa [syscall.NLA_ALIGNTO, add_sub_assoc] using this

theorem paddedLen_spec (n : Nat) :
    paddedLen n % 4 = 0 ∧ n + 5 ≤ paddedLen n ∧ paddedLen n < n + 9 := by
  unfold paddedLen; omega

theorem land_len (n : Nat) :
    Int.land (syscall_NLA_HDRLEN + (n : Int) + 1 + 3) (~~~ 3) = (paddedLen n : Int) := by
  have h := land_not_three (n + 5 + 3)
  rw [HDRLEN_eq, show (4 : Int) + (n : Int) + 1 + 3 = ((n + 5 + 3 : Nat) : Int) by push_cast; ring]
  exact h

theorem ceil_div_four (x : Int) : ⌈(x : ℚ) / 4⌉ = (x + 3) / 4 := by
  rw [Int.ceil_eq_iff]
  have h1 : 4 * ((x + 3) / 4) ≤ x + 3 := by omega
  have h2 : x ≤ 4 * ((x + 3) / 4) := by omega
  have h1q : (4 : ℚ) * (((x + 3) / 4 : Int) : ℚ) ≤ (x : ℚ) + 3 := by exact_mod_cast h1
  have h2q : (x : ℚ) ≤ 4 * (((x + 3) / 4 : Int) : ℚ) := by exact_mod_cast h2
  constructor
  · linarith
  · linarith

/-! ## Conversions and byte order -/

theorem uint16_ofInt_val (x : Int) (h0 : 0 ≤ x) (h1 : x < 65536) :
    ((uint16.ofInt x).val : Int) = x := by
  simp only [uint16.ofInt]
  omega

theorem uint16_ofInt_val_emod (x : Int) : ((uint16.ofInt x).val : Int) = x % 65536 := by
  simp only [uint16.ofInt]
  omega

theorem enc16_length (o : ByteOrder) (v : uint16) : (enc16 o v).length = 2 := by
  cases o <;> rfl

theorem enc32_length (o : ByteOrder) (v : uint32) : (enc32 o v).length = 4 := by
  cases o <;> rfl

theorem PutUint16_window (o : ByteOrder) (w : List byte) (v : uint16) (hw : w.length = 2) :
    o.PutUint16 w v = some (enc16 o v) := by
  match w, hw with
  | [x, y], _ => cases o <;> simp [ByteOrder.PutUint16, enc16]

theorem PutUint32_window (o : ByteOrder) (w : List byte) (v : uint32) (hw : w.length = 4) :
    o.PutUint32 w v = some (enc32 o v) := by
  match w, hw with
  | [x, y, z, u], _ => cases o <;> simp [ByteOrder.PutUint32, enc32]

theorem lor_shiftLeft (a b k : Nat) (h : a < 2 ^ k) : a ||| b <<< k = a + b * 2 ^ k := by
  rw [Nat.shiftLeft_eq, Nat.lor_comm, Nat.mul_comm b, ← Nat.mul_add_lt_is_or h, Nat.add_comm]

theorem Uint16_enc16 (o : ByteOrder) (v : uint16) (post : List byte) :
    o.Uint16 (enc16 o v ++ post) = some v := by
  obtain ⟨x, hx⟩ := v
  cases o <;>
    simp only [enc16, ByteOrder.Uint16, List.cons_append, List.nil_append, byte.ofNat,
      uint16.ofNat, Option.some.injEq, Fin.mk.injEq] <;>
    rw [lor_shiftLeft _ _ 8 (by norm_num; omega)] <;>
    simp only [Nat.shiftRight_eq_div_pow] <;> omega

theorem Uint32_enc32 (o : ByteOrder) (v : uint32) (post : List byte) :
    o.Uint32 (enc32 o v ++ post) = some v := by
  obtain ⟨x, hx⟩ := v
  cases o <;>
    simp only [enc32, ByteOrder.Uint32, List.cons_append, List.nil_append, byte.ofNat,
      uint32.ofNat, Option.some.injEq, Fin.mk.injEq] <;>
    rw [lor_shiftLeft _ _ 8 (by norm_num; omega), lor_shiftLeft _ _ 16 (by norm_num; omega),
      lor_shiftLeft _ _ 24 (by norm_num; omega)] <;>
    simp only [Nat.shiftRight_eq_div_pow] <;> omega

theorem enc16_injective (o : ByteOrder) (a b : uint16) (h : enc16 o a = enc16 o b) : a = b := by
  have ha := Uint16_enc16 o a []
  have hb := Uint16_enc16 o b []
  rw [h, hb] at ha
  exact (Option.some.inj ha).symm

theorem uint16_ofInt_eq_iff (x y : Int) :
    uint16.ofInt x = uint16.ofInt y ↔ x % 65536 = y % 65536 := by
  constructor
  · intro h
    have := congrArg (fun u : uint16 => (u.val : Int)) h
    simpa only [uint16_ofInt_val_emod] using this
  · intro h
    apply Fin.ext
    simp only [uint16.ofInt, h]

/-! ## Slices -/

theorem make_natCast (k : Nat) : make (k : Int) = some (List.replicate k 0) := by
  simp [make]

theorem withSlice_append (buf pre w post w' : List byte) (lo hi : Nat)
    (f : List byte → Option (List byte)) (hbuf : buf = pre ++ w ++ post)
    (hlo : lo = pre.length) (hhi : hi = lo + w.length) (hf : f w = some w') :
    withSlice buf lo hi f = some (pre ++ w' ++ post) := by
  subst hbuf hlo hhi
  simp [withSlice, slice, hf]

theorem slice_append (pre w post : List byte) :
    slice (pre ++ w ++ post) pre.length (pre.length + w.length) = some w := by
  simp [slice]

theorem slice_isSome (buf : List byte) (lo hi : Nat) (h1 : lo ≤ hi) (h2 : hi ≤ buf.length) :
    (slice buf lo hi).isSome = true := by
  simp [slice, h1, h2]

theorem index_isSome (buf : List byte) (i : Nat) (h : i < buf.length) :
    (index buf i).isSome = true := by
  simp [index, h]

theorem index_append_replicate (pre : List byte) (k i : Nat) (h1 : pre.length ≤ i)
    (h2 : i < pre.length + k) : index (pre ++ List.replicate k 0) i = some 0 := by
  have hi : i < (pre ++ List.replicate k (0 : byte)).length := by simpa using h2
  rw [index, dif_pos hi, List.get_eq_getElem, List.getElem_append_right h1,
    List.getElem_replicate]

theorem copy_replicate (k : Nat) (src : List byte) (h : src.length ≤ k) :
    copy (List.replicate k 0) src = src ++ List.replicate (k - src.length) 0 := by
  simp [copy, List.take_of_length_le h]

theorem field16_at (o : ByteOrder) (pre post : List byte) (v : uint16) (lo hi : Nat)
    (hlo : lo = pre.length) (hhi : hi = lo + 2) :
    field16 o (pre ++ enc16 o v ++ post) lo hi = some (v.val : Int) := by
  subst hlo hhi
  have h := slice_append pre (enc16 o v) post
  rw [enc16_length] at h
  have h2 := Uint16_enc16 o v []
  rw [List.append_nil] at h2
  rw [field16, h, Option.some_bind, h2]
  rfl

theorem field32_at (o : ByteOrder) (pre post : List byte) (v : uint32) (lo hi : Nat)
    (hlo : lo = pre.length) (hhi : hi = lo + 4) :
    field32 o (pre ++ enc32 o v ++ post) lo hi = some (v.val : Int) := by
  subst hlo hhi
  have h := slice_append pre (enc32 o v) post
  rw [enc32_length] at h
  have h2 := Uint32_enc32 o v []
  rw [List.append_nil] at h2
  rw [field32, h, Option.some_bind, h2]
  rfl

/-! ## The buffers the three encoders return -/

theorem Int32msg_Serialize_eq (native : ByteOrder) (msg : Int32msg) :
    msg.Serialize native
      = some (enc16 native (uint16.ofInt msg.Len) ++ enc16 native msg.Type_
          ++ enc32 native msg.Value) := by
  have hlen : msg.Len = 8 := by simp [Int32msg.Len, HDRLEN_eq]
  simp only [Int32msg.Serialize, hlen]
  cases native <;> rfl

theorem Boolmsg_Serialize_eq (native : ByteOrder) (msg : Boolmsg) :
    msg.Serialize native
      = some (enc16 native (uint16.ofInt msg.Len) ++ enc16 native msg.Type_
          ++ [if msg.Value then 1 else 0]) := by
  have hlen : msg.Len = 5 := by simp [Boolmsg.Len, HDRLEN_eq]
  simp only [Boolmsg.Serialize, hlen]
  cases native <;> cases msg.Value <;> rfl

theorem Bytemsg_Len_eq (msg : Bytemsg) : msg.Len = ((msg.Value.length + 5 : Nat) : Int) := by
  simp [Bytemsg.Len, HDRLEN_eq]; omega

/-- For a value shorter than `2^62` bytes both `Len()` and the rounded buffer
length lie in the range of a 64-bit `int`, so the `int` arithmetic of
`Bytemsg.Serialize` cannot wrap. -/
theorem Bytemsg_Len_no_wrap (msg : Bytemsg) (h : msg.Value.length < 2 ^ 62) :
    0 ≤ msg.Len ∧ msg.Len + syscall.NLA_ALIGNTO - 1 < 2 ^ 63 ∧
      0 ≤ Int.land (msg.Len + syscall.NLA_ALIGNTO - 1) (~~~ (syscall.NLA_ALIGNTO - 1)) ∧
      Int.land (msg.Len + syscall.NLA_ALIGNTO - 1) (~~~ (syscall.NLA_ALIGNTO - 1)) < 2 ^ 63 := by
  rw [Bytemsg_Len_eq, land_align]
  simp only [syscall.NLA_ALIGNTO]
  norm_num at h ⊢
  omega

theorem Bytemsg_Serialize_eq (native : ByteOrder) (msg : Bytemsg) :
    msg.Serialize native
      = some (enc16 native (uint16.ofInt msg.Len) ++ enc16 native msg.Type_ ++ msg.Value
          ++ List.replicate (paddedLen msg.Value.length - 4 - msg.Value.length) 0) := by
  have hN : paddedLen msg.Value.length = 2 + (2 + (paddedLen msg.Value.length - 4)) := by
    unfold paddedLen; omega
  have hk : msg.Value.length ≤ paddedLen msg.Value.length - 4 := by
    unfold paddedLen; omega
  generalize hNdef : paddedLen msg.Value.length = N at hN hk
  have hmake : make (Int.land (msg.Len + syscall.NLA_ALIGNTO - 1)
      (~~~ (syscall.NLA_ALIGNTO - 1))) = some (List.replicate N 0) := by
    rw [Bytemsg_Len_eq, land_align, make_natCast, ← hNdef, paddedLen]
  have e1 := enc16_length native (uint16.ofInt msg.Len)
  have e2 := enc16_length native msg.Type_
  have h1 : withSlice (List.replicate N 0) 0 2
      (fun b => native.PutUint16 b (uint16.ofInt msg.Len))
      = some ([] ++ enc16 native (uint16.ofInt msg.Len)
          ++ (List.replicate 2 0 ++ List.replicate (N - 4) 0)) := by
    apply withSlice_append _ [] (List.replicate 2 0) _ _ 0 2
    · rw [List.nil_append, ← List.replicate_add, ← List.replicate_add, ← hN]
    · rfl
    · rfl
    · exact PutUint16_window _ _ _ rfl
  have h2 : withSlice ([] ++ enc16 native (uint16.ofInt msg.Len)
          ++ (List.replicate 2 0 ++ List.replicate (N - 4) 0)) 2 4
      (fun b => native.PutUint16 b msg.Type_)
      = some (enc16 native (uint16.ofInt msg.Len) ++ enc16 native msg.Type_
          ++ List.replicate (N - 4) 0) := by
    apply withSlice_append _ _ (List.replicate 2 0) _ _ 2 4
    · simp
    · simp [e1]
    · rfl
    · exact PutUint16_window _ _ _ rfl
  have h3 : withSlice (enc16 native (uint16.ofInt msg.Len) ++ enc16 native msg.Type_
          ++ List.replicate (N - 4) 0) 4
        (enc16 native (uint16.ofInt msg.Len) ++ enc16 native msg.Type_
          ++ List.replicate (N - 4) 0).length
      (fun b => some (copy b msg.Value))
      = some (enc16 native (uint16.ofInt msg.Len) ++ enc16 native msg.Type_
          ++ copy (List.replicate (N - 4) 0) msg.Value ++ []) := by
    apply withSlice_append _ _ (List.replicate (N - 4) 0) [] _ _ _
    · simp
    · simp [e1, e2]
    · simp [e1, e2]; omega
    · rfl
  rw [copy_replicate _ _ hk] at h3
  simp only [Bytemsg.Serialize, hmake, bind, Option.bind, h1, h2, h3, pure]
  simp

theorem Bytemsg_Serialize_length (native : ByteOrder) (msg : Bytemsg) :
    ∃ buf, msg.Serialize native = some buf ∧ buf.length = paddedLen msg.Value.length := by
  refine ⟨_, Bytemsg_Serialize_eq native msg, ?_⟩
  have := paddedLen_spec msg.Value.length
  simp [enc16_length]
  omega

theorem Bytemsg_Serialize_shape (native : ByteOrder) (msg : Bytemsg) :
    ∃ hdr pad, msg.Serialize native = some (hdr ++ msg.Value ++ List.replicate pad 0) ∧
      hdr = enc16 native (uint16.ofInt msg.Len) ++ enc16 native msg.Type_ ∧
      hdr.length = 4 ∧ 1 ≤ pad ∧ 4 + msg.Value.length + pad = paddedLen msg.Value.length := by
  have hp := paddedLen_spec msg.Value.length
  refine ⟨_, _, Bytemsg_Serialize_eq native msg, rfl, by simp [enc16_length], ?_, ?_⟩ <;> omega

theorem Bytemsg_Serialize_length_field_aux (native : ByteOrder) (msg : Bytemsg) :
    ∃ buf, msg.Serialize native = some buf ∧
      field16 native buf 0 2 = some (msg.Len % 65536) := by
  refine ⟨_, Bytemsg_Serialize_eq native msg, ?_⟩
  have h := field16_at native [] (enc16 native msg.Type_ ++ msg.Value
    ++ List.replicate (paddedLen msg.Value.length - 4 - msg.Value.length) 0)
    (uint16.ofInt msg.Len) 0 2 rfl rfl
  rw [uint16_ofInt_val_emod] at h
  simpa using h

theorem Bytemsg_Serialize_inj_aux (native : ByteOrder) (m1 m2 : Bytemsg)
    (h : m1.Serialize native = m2.Serialize native) :
    m1.Type_ = m2.Type_ ∧ m1.Value = m2.Value := by
  rw [Bytemsg_Serialize_eq, Bytemsg_Serialize_eq] at h
  have hl := Option.some.inj h
  have hp1 := paddedLen_spec m1.Value.length
  have hp2 := paddedLen_spec m2.Value.length
  have hlen := congrArg List.length hl
  simp only [List.length_append, enc16_length, List.length_replicate] at hlen
  simp only [List.append_assoc] at hl
  obtain ⟨hL, hl⟩ := List.append_inj hl (by simp only [enc16_length])
  obtain ⟨hT, hl⟩ := List.append_inj hl (by simp only [enc16_length])
  have hL2 := (uint16_ofInt_eq_iff _ _).mp (enc16_injective _ _ _ hL)
  rw [Bytemsg_Len_eq, Bytemsg_Len_eq] at hL2
  have hn : m1.Value.length = m2.Value.length := by omega
  exact ⟨enc16_injective _ _ _ hT, (List.append_inj hl hn).1⟩

/-! ## Concatenation of serialized attributes -/

theorem serializeAttr_aligned (native : ByteOrder) (m : Int32msg ⊕ Bytemsg) :
    ∃ buf, serializeAttr native m = some buf ∧ buf.length % 4 = 0 := by
  cases m with
  | inl m =>
    refine ⟨_, Int32msg_Serialize_eq native m, ?_⟩
    simp [enc16_length, enc32_length]
  | inr m =>
    obtain ⟨buf, hbuf, hlen⟩ := Bytemsg_Serialize_length native m
    have hp := paddedLen_spec m.Value.length
    exact ⟨buf, hbuf, by omega⟩

theorem serializeAll_aligned (native : ByteOrder) (msgs : List (Int32msg ⊕ Bytemsg)) :
    ∃ bufs, serializeAll native msgs = some bufs ∧ bufs.length = msgs.length ∧
      ∀ buf ∈ bufs, buf.length % 4 = 0 := by
  induction msgs with
  | nil => exact ⟨[], rfl, rfl, by simp⟩
  | cons m ms ih =>
    obtain ⟨buf, hbuf, hlen⟩ := serializeAttr_aligned native m
    obtain ⟨bufs, hbufs, hl, hall⟩ := ih
    refine ⟨buf :: bufs, ?_, by simp [hl], ?_⟩
    · simp [serializeAll, hbuf, hbufs]
    · intro x hx
      rcases List.mem_cons.mp hx with rfl | hx
      · exact hlen
      · exact hall x hx

theorem flatten_length_aligned (bufs : List (List byte)) (h : ∀ buf ∈ bufs, buf.length % 4 = 0) :
    bufs.flatten.length % 4 = 0 := by
  induction bufs with
  | nil => rfl
  | cons x xs ih =>
    have hx := h x (List.mem_cons_self _ _)
    have hxs := ih fun buf hb => h buf (List.mem_cons_of_mem _ hb)
    simp only [List.flatten_cons, List.length_append]
    omega

theorem startOffset_aligned (bufs : List (List byte)) (k : Nat)
    (h : ∀ buf ∈ bufs, buf.length % 4 = 0) : startOffset bufs k % 4 = 0 :=
  flatten_length_aligned _ fun buf hb => h buf (List.mem_of_mem_take hb)

theorem serializeAny_length (native : ByteOrder) (m : (Int32msg ⊕ Bytemsg) ⊕ Boolmsg) :
    ∃ buf, serializeAny native m = some buf ∧
      buf.length % 4 = (if m.isRight then 1 else 0) := by
  cases m with
  | inl m => exact serializeAttr_aligned native m
  | inr m =>
    refine ⟨_, Boolmsg_Serialize_eq native m, ?_⟩
    simp [enc16_length]

theorem startOffset_cons_succ (buf : List byte) (bufs : List (List byte)) (k : Nat) :
    startOffset (buf :: bufs) (k + 1) = buf.length + startOffset bufs k := by
  simp [startOffset]

theorem boolsBefore_cons_succ (m : (Int32msg ⊕ Bytemsg) ⊕ Boolmsg)
    (ms : List ((Int32msg ⊕ Bytemsg) ⊕ Boolmsg)) (k : Nat) :
    boolsBefore (m :: ms) (k + 1) = boolsBefore ms k + (if m.isRight then 1 else 0) := by
  simp [boolsBefore, List.countP_cons]

theorem serializeAnyAll_offsets (native : ByteOrder)
    (msgs : List ((Int32msg ⊕ Bytemsg) ⊕ Boolmsg)) :
    ∃ bufs, serializeAnyAll native msgs = some bufs ∧ bufs.length = msgs.length ∧
      ∀ k, startOffset bufs k % 4 = boolsBefore msgs k % 4 := by
  induction msgs with
  | nil => exact ⟨[], rfl, rfl, fun k => by simp [startOffset, boolsBefore]⟩
  | cons m ms ih =>
    obtain ⟨buf, hbuf, hlen⟩ := serializeAny_length native m
    obtain ⟨bufs, hbufs, hl, hoff⟩ := ih
    refine ⟨buf :: bufs, ?_, by simp [hl], ?_⟩
    · simp [serializeAnyAll, hbuf, hbufs]
    · intro k
      cases k with
      | zero => simp [startOffset, boolsBefore]
      | succ k =>
        rw [startOffset_cons_succ, boolsBefore_cons_succ]
        have := hoff k
        omega

/-! ## Properties of the wire format -/

/-- C1. For every 16-bit tag `t`, every 32-bit value `v` and either byte order,
`Int32msg.Serialize` returns a buffer of exactly `HDRLEN + 4 = 8` bytes whose
bytes `[0:2]` decode to `HDRLEN + 4`, whose bytes `[2:4]` decode to `t` and whose
bytes `[4:8]` decode to `v`. -/
theorem Int32msg_Serialize_layout (native : ByteOrder) (t : uint16) (v : uint32) :
    ∃ buf, Int32msg.Serialize native ⟨t, v⟩ = some buf ∧
      (buf.length : Int) = syscall_NLA_HDRLEN + 4 ∧ buf.length = 8 ∧
      field16 native buf 0 2 = some (syscall_NLA_HDRLEN + 4) ∧
      field16 native buf 2 4 = some (t.val : Int) ∧
      field32 native buf 4 8 = some (v.val : Int) := by
  refine ⟨_, Int32msg_Serialize_eq native ⟨t, v⟩, ?_, ?_, ?_, ?_, ?_⟩
  · simp [enc16_length, enc32_length, HDRLEN_eq]
  · simp [enc16_length, enc32_length]
  · have h := field16_at native [] (enc16 native t ++ enc32 native v)
      (uint16.ofInt (Int32msg.Len ⟨t, v⟩)) 0 2 rfl rfl
    rw [uint16_ofInt_val _ (by simp [Int32msg.Len, HDRLEN_eq])
      (by simp [Int32msg.Len, HDRLEN_eq])] at h
    simpa [Int32msg.Len] using h
  · exact field16_at native _ _ t 2 4 (by simp [enc16_length]) rfl
  · have h := field32_at native (enc16 native (uint16.ofInt (Int32msg.Len ⟨t, v⟩))
      ++ enc16 native t) [] v 4 8 (by simp [enc16_length]) rfl
    simpa using h

/-- C2. For every tag `t`, every byte sequence `b` and either byte order, the
buffer `Bytemsg.Serialize` returns has a length that is a multiple of the
alignment unit, is at least `HDRLEN + len(b) + 1`, and is at most every other
multiple of the alignment unit that is at least `HDRLEN + len(b) + 1`; it is the
value of the mask expression `(l + 3) &^ 3`, which equals `4 * ⌈l / 4⌉`, for
`l = HDRLEN + len(b) + 1`. -/
theorem Bytemsg_Serialize_length_is_least_aligned (native : ByteOrder) (t : uint16)
    (b : List byte) :
    ∃ buf, Bytemsg.Serialize native ⟨t, b⟩ = some buf ∧
      syscall.NLA_ALIGNTO ∣ (buf.length : Int) ∧
      syscall_NLA_HDRLEN + (b.length : Int) + 1 ≤ (buf.length : Int) ∧
      (∀ k : Int, syscall.NLA_ALIGNTO ∣ k → syscall_NLA_HDRLEN + (b.length : Int) + 1 ≤ k →
        (buf.length : Int) ≤ k) ∧
      (buf.length : Int) = Int.land (syscall_NLA_HDRLEN + (b.length : Int) + 1 + 3) (~~~ 3) ∧
      Int.land (syscall_NLA_HDRLEN + (b.length : Int) + 1 + 3) (~~~ 3)
        = 4 * ⌈((syscall_NLA_HDRLEN + (b.length : Int) + 1 : Int) : ℚ) / 4⌉ := by
  obtain ⟨buf, hbuf, hlen⟩ := Bytemsg_Serialize_length native ⟨t, b⟩
  have hp := paddedLen_spec b.length
  simp only at hlen
  refine ⟨buf, hbuf, ?_, ?_, ?_, ?_, ?_⟩
  · rw [hlen]; simp only [syscall.NLA_ALIGNTO]; omega
  · rw [hlen, HDRLEN_eq]; omega
  · intro k hk hle
    rw [hlen]
    rw [HDRLEN_eq] at hle
    simp only [syscall.NLA_ALIGNTO] at hk
    omega
  · rw [hlen, land_len]
  · rw [land_len, ceil_div_four, HDRLEN_eq]
    unfold paddedLen
    push_cast
    omega

/-- C3. For every tag `t`, every byte sequence `b` (zero bytes included) and
either byte order, the buffer `Bytemsg.Serialize` returns holds `b`, exactly and
in order, at positions `[HDRLEN, HDRLEN + len(b))`, and every byte from position
`HDRLEN + len(b)` to the end of the buffer is zero. -/
theorem Bytemsg_Serialize_payload (native : ByteOrder) (t : uint16) (b : List byte) :
    ∃ buf, Bytemsg.Serialize native ⟨t, b⟩ = some buf ∧
      slice buf syscall_NLA_HDRLEN.toNat (syscall_NLA_HDRLEN.toNat + b.length) = some b ∧
      ∀ i, syscall_NLA_HDRLEN.toNat + b.length ≤ i → i < buf.length → index buf i = some 0 := by
  obtain ⟨hdr, pad, hbuf, -, hhdr, -, -⟩ := Bytemsg_Serialize_shape native ⟨t, b⟩
  simp only at hbuf
  refine ⟨_, hbuf, ?_, ?_⟩
  · rw [HDRLEN_toNat, ← hhdr]
    exact slice_append hdr b _
  · intro i h1 h2
    rw [HDRLEN_toNat] at h1
    apply index_append_replicate
    · simp; omega
    · simp at h2 ⊢; omega

/-- C4, counterexample. For the value of 65531 zero bytes (tag 0, little-endian
host) the logical length `HDRLEN + n + 1` is 65536, but the length field of the
serialized buffer decodes to 0: no buffer returned by `Bytemsg.Serialize` has a
length field that decodes to `HDRLEN + n + 1`. -/
theorem Bytemsg_Serialize_length_field_overflow :
    (∃ buf, Bytemsg.Serialize .LittleEndian ⟨0, List.replicate 65531 0⟩ = some buf ∧
      field16 .LittleEndian buf 0 2 = some 0) ∧
    Bytemsg.Len ⟨0, List.replicate 65531 0⟩ = 65536 ∧
    ¬ ∃ buf, Bytemsg.Serialize .LittleEndian ⟨0, List.replicate 65531 0⟩ = some buf ∧
      field16 .LittleEndian buf 0 2
        = some (syscall_NLA_HDRLEN + ((List.replicate 65531 (0 : byte)).length : Int) + 1) := by
  have key : ∀ b : List byte, b.length = 65531 →
      (∃ buf, Bytemsg.Serialize .LittleEndian ⟨0, b⟩ = some buf ∧
        field16 .LittleEndian buf 0 2 = some 0) ∧
      Bytemsg.Len ⟨0, b⟩ = 65536 ∧
      ¬ ∃ buf, Bytemsg.Serialize .LittleEndian ⟨0, b⟩ = some buf ∧
        field16 .LittleEndian buf 0 2 = some (syscall_NLA_HDRLEN + (b.length : Int) + 1) := by
    intro b hb
    obtain ⟨buf, hbuf, hf⟩ := Bytemsg_Serialize_length_field_aux .LittleEndian ⟨0, b⟩
    have hlen : Bytemsg.Len ⟨0, b⟩ = 65536 := by
      rw [Bytemsg_Len_eq]
      simp only [hb]
      rfl
    rw [hlen] at hf
    refine ⟨⟨buf, hbuf, hf⟩, hlen, ?_⟩
    rintro ⟨buf2, hbuf2, hf2⟩
    rw [hbuf] at hbuf2
    cases hbuf2
    rw [hf, HDRLEN_eq, hb] at hf2
    exact absurd (Option.some.inj hf2) (by decide)
  exact key _ (List.length_replicate _ _)

/-- C4, amended. For every tag `t`, every byte sequence `b` of length at most
65530 and either byte order, the 16-bit length field at bytes `[0:2]` of the
buffer `Bytemsg.Serialize` returns decodes to `HDRLEN + len(b) + 1`, the
unpadded logical length that `Bytemsg.Len` returns. -/
theorem Bytemsg_Serialize_length_field_is_Len (native : ByteOrder) (t : uint16)
    (b : List byte) (h : b.length ≤ 65530) :
    ∃ buf, Bytemsg.Serialize native ⟨t, b⟩ = some buf ∧
      field16 native buf 0 2 = some (syscall_NLA_HDRLEN + (b.length : Int) + 1) ∧
      field16 native buf 0 2 = some (Bytemsg.Len ⟨t, b⟩) := by
  obtain ⟨buf, hbuf, hf⟩ := Bytemsg_Serialize_length_field_aux native ⟨t, b⟩
  have hlen : Bytemsg.Len ⟨t, b⟩ % 65536 = Bytemsg.Len ⟨t, b⟩ := by
    rw [Bytemsg_Len_eq]
    simp only
    omega
  rw [hlen] at hf
  exact ⟨buf, hbuf, hf, hf⟩

/-- C4, witness: the amended statement at the seven-byte path `/ns/net`. -/
theorem Bytemsg_Serialize_length_field_is_Len_witness :
    ([47, 110, 115, 47, 110, 101, 116] : List byte).length ≤ 65530 ∧
    ∃ buf, Bytemsg.Serialize .LittleEndian ⟨27283, [47, 110, 115, 47, 110, 101, 116]⟩ = some buf ∧
      field16 .LittleEndian buf 0 2
        = some (syscall_NLA_HDRLEN
            + (([47, 110, 115, 47, 110, 101, 116] : List byte).length : Int) + 1) ∧
      field16 .LittleEndian buf 0 2
        = some (Bytemsg.Len ⟨27283, [47, 110, 115, 47, 110, 101, 116]⟩) :=
  ⟨by decide, Bytemsg_Serialize_length_field_is_Len .LittleEndian 27283
    [47, 110, 115, 47, 110, 101, 116] (by decide)⟩

/-- C5. For every tag `t`, every byte sequence `b` and either byte order, the
serialized attribute is null-terminated: position `HDRLEN + len(b)` lies inside
the returned buffer, the byte there is `0`, and the window `[HDRLEN, HDRLEN + len(b))`
before it holds the whole of `b` (the copy truncates nothing). -/
theorem Bytemsg_Serialize_null_terminated (native : ByteOrder) (t : uint16) (b : List byte) :
    ∃ buf, Bytemsg.Serialize native ⟨t, b⟩ = some buf ∧
      syscall_NLA_HDRLEN.toNat + b.length < buf.length ∧
      index buf (syscall_NLA_HDRLEN.toNat + b.length) = some 0 ∧
      slice buf syscall_NLA_HDRLEN.toNat (syscall_NLA_HDRLEN.toNat + b.length) = some b := by
  obtain ⟨hdr, pad, hbuf, -, hhdr, hpad, -⟩ := Bytemsg_Serialize_shape native ⟨t, b⟩
  simp only at hbuf
  refine ⟨_, hbuf, ?_, ?_, ?_⟩
  · rw [HDRLEN_toNat]; simp; omega
  · rw [HDRLEN_toNat]
    apply index_append_replicate
    · simp; omega
    · simp; omega
  · rw [HDRLEN_toNat, ← hhdr]
    exact slice_append hdr b _

/-- C6. For every tag `t`, either flag value and either byte order,
`Boolmsg.Serialize` returns a buffer of exactly `HDRLEN + 1 = 5` bytes whose
length field at `[0:2]` decodes to `HDRLEN + 1` and whose final byte is `1` for
`true` and `0` for `false`; its length is not a multiple of the alignment unit. -/
theorem Boolmsg_Serialize_layout (native : ByteOrder) (t : uint16) (val : Bool) :
    ∃ buf, Boolmsg.Serialize native ⟨t, val⟩ = some buf ∧
      (buf.length : Int) = syscall_NLA_HDRLEN + 1 ∧ buf.length = 5 ∧
      field16 native buf 0 2 = some (syscall_NLA_HDRLEN + 1) ∧
      buf.getLast? = some (if val then 1 else 0) ∧
      index buf (buf.length - 1) = some (if val then 1 else 0) ∧
      ¬ syscall.NLA_ALIGNTO ∣ (buf.length : Int) := by
  refine ⟨_, Boolmsg_Serialize_eq native ⟨t, val⟩, ?_, ?_, ?_, ?_, ?_, ?_⟩
  · simp [enc16_length, HDRLEN_eq]
  · simp [enc16_length]
  · have h := field16_at native [] (enc16 native t ++ [if val then 1 else 0])
      (uint16.ofInt (Boolmsg.Len ⟨t, val⟩)) 0 2 rfl rfl
    rw [uint16_ofInt_val _ (by simp [Boolmsg.Len, HDRLEN_eq])
      (by simp [Boolmsg.Len, HDRLEN_eq])] at h
    simpa [Boolmsg.Len] using h
  · simp
  · cases native <;> cases val <;> rfl
  · simp only [List.length_append, enc16_length, List.length_singleton, syscall.NLA_ALIGNTO]
    decide

/-- C7. The tag is echoed verbatim and never validated: for every 16-bit value
`t`, every payload and either byte order, each of `Int32msg.Serialize`,
`Bytemsg.Serialize` and `Boolmsg.Serialize` returns a buffer whose bytes `[2:4]`
decode to exactly `t`. -/
theorem Serialize_echoes_tag (native : ByteOrder) (t : uint16) (v : uint32) (b : List byte)
    (val : Bool) :
    (∃ buf, Int32msg.Serialize native ⟨t, v⟩ = some buf ∧
      field16 native buf 2 4 = some (t.val : Int)) ∧
    (∃ buf, Bytemsg.Serialize native ⟨t, b⟩ = some buf ∧
      field16 native buf 2 4 = some (t.val : Int)) ∧
    (∃ buf, Boolmsg.Serialize native ⟨t, val⟩ = some buf ∧
      field16 native buf 2 4 = some (t.val : Int)) := by
  refine ⟨⟨_, Int32msg_Serialize_eq native ⟨t, v⟩, ?_⟩,
    ⟨_, Bytemsg_Serialize_eq native ⟨t, b⟩, ?_⟩,
    ⟨_, Boolmsg_Serialize_eq native ⟨t, val⟩, ?_⟩⟩
  · exact field16_at native _ _ t 2 4 (by simp [enc16_length]) rfl
  · simp only [List.append_assoc]
    rw [← List.append_assoc]
    exact field16_at native _ _ t 2 4 (by simp [enc16_length]) rfl
  · exact field16_at native _ _ t 2 4 (by simp [enc16_length]) rfl

/-- C8. For every tag `t` and either byte order, serializing a `Bytemsg` with an
empty value yields a buffer of 8 bytes, the smallest multiple of the alignment
unit that is at least `HDRLEN + 1`, whose length field decodes to `HDRLEN + 1 = 5`
and whose bytes after the header are all zero. -/
theorem Bytemsg_Serialize_empty (native : ByteOrder) (t : uint16) :
    ∃ buf, Bytemsg.Serialize native ⟨t, []⟩ = some buf ∧
      buf.length = 8 ∧
      syscall.NLA_ALIGNTO ∣ (buf.length : Int) ∧
      syscall_NLA_HDRLEN + 1 ≤ (buf.length : Int) ∧
      (∀ k : Int, syscall.NLA_ALIGNTO ∣ k → syscall_NLA_HDRLEN + 1 ≤ k → (buf.length : Int) ≤ k) ∧
      field16 native buf 0 2 = some (syscall_NLA_HDRLEN + 1) ∧
      field16 native buf 0 2 = some 5 ∧
      buf.drop syscall_NLA_HDRLEN.toNat = List.replicate 4 0 ∧
      ∀ i, syscall_NLA_HDRLEN.toNat ≤ i → i < buf.length → index buf i = some 0 := by
  have hbuf := Bytemsg_Serialize_eq native ⟨t, []⟩
  have hpl : paddedLen 0 = 8 := rfl
  simp only [List.length_nil, hpl, List.append_nil] at hbuf
  have hlenv : Bytemsg.Len ⟨t, []⟩ = 5 := by simp [Bytemsg.Len, HDRLEN_eq]
  rw [hlenv] at hbuf
  have e1 := enc16_length native (uint16.ofInt 5)
  have e2 := enc16_length native t
  have hlen : (enc16 native (uint16.ofInt 5) ++ enc16 native t
      ++ List.replicate (8 - 4 - 0) (0 : byte)).length = 8 := by
    simp [e1, e2]
  have hf : field16 native (enc16 native (uint16.ofInt 5) ++ enc16 native t
      ++ List.replicate (8 - 4 - 0) (0 : byte)) 0 2 = some 5 := by
    have h := field16_at native [] (enc16 native t ++ List.replicate (8 - 4 - 0) (0 : byte))
      (uint16.ofInt 5) 0 2 rfl rfl
    rw [uint16_ofInt_val _ (by decide) (by decide)] at h
    simpa using h
  refine ⟨_, hbuf, hlen, ?_, ?_, ?_, ?_, hf, ?_, ?_⟩
  · rw [hlen]; simp only [syscall.NLA_ALIGNTO]; decide
  · rw [hlen, HDRLEN_eq]; decide
  · intro k hk hle
    rw [hlen]
    rw [HDRLEN_eq] at hle
    simp only [syscall.NLA_ALIGNTO] at hk
    omega
  · rw [hf, HDRLEN_eq]; rfl
  · rw [HDRLEN_toNat]
    exact List.drop_left' (by simp [e1, e2])
  · intro i h1 h2
    rw [HDRLEN_toNat] at h1
    rw [hlen] at h2
    apply index_append_replicate
    · simp [e1, e2]; exact h1
    · simp [e1, e2]; omega

/-- C9. None of the three `Serialize` operations can panic: for every message of
each variant and either byte order, the allocation succeeds, every slice
expression and index the function uses (`buf[0:2]`, `buf[2:4]`, `buf[4:8]`,
`buf[4:]`, `buf[4]`) is within the bounds of the allocated buffer, and a buffer
is returned. -/
theorem Serialize_never_panics (native : ByteOrder) :
    (∀ msg : Int32msg, ∃ buf0 buf, make msg.Len = some buf0 ∧
      (slice buf0 0 2).isSome = true ∧ (slice buf0 2 4).isSome = true ∧
      (slice buf0 4 8).isSome = true ∧ msg.Serialize native = some buf) ∧
    (∀ msg : Bytemsg, ∃ buf0 buf,
      make (Int.land (msg.Len + syscall.NLA_ALIGNTO - 1) (~~~ (syscall.NLA_ALIGNTO - 1)))
        = some buf0 ∧
      (slice buf0 0 2).isSome = true ∧ (slice buf0 2 4).isSome = true ∧
      (slice buf0 4 buf0.length).isSome = true ∧ msg.Serialize native = some buf) ∧
    (∀ msg : Boolmsg, ∃ buf0 buf, make msg.Len = some buf0 ∧
      (slice buf0 0 2).isSome = true ∧ (slice buf0 2 4).isSome = true ∧
      (index buf0 4).isSome = true ∧ msg.Serialize native = some buf) := by
  refine ⟨fun msg => ?_, fun msg => ?_, fun msg => ?_⟩
  · have hlen : msg.Len = ((8 : Nat) : Int) := by simp [Int32msg.Len, HDRLEN_eq]
    refine ⟨_, _, by rw [hlen, make_natCast], ?_, ?_, ?_, Int32msg_Serialize_eq native msg⟩ <;>
      exact slice_isSome _ _ _ (by decide) (by simp)
  · have hp := paddedLen_spec msg.Value.length
    refine ⟨_, _, by rw [Bytemsg_Len_eq, land_align, make_natCast], ?_, ?_, ?_,
      Bytemsg_Serialize_eq native msg⟩ <;>
      apply slice_isSome <;> simp <;> unfold paddedLen at hp <;> omega
  · have hlen : msg.Len = ((5 : Nat) : Int) := by simp [Boolmsg.Len, HDRLEN_eq]
    refine ⟨_, _, by rw [hlen, make_natCast], ?_, ?_, ?_, Boolmsg_Serialize_eq native msg⟩
    · exact slice_isSome _ _ _ (by decide) (by simp)
    · exact slice_isSome _ _ _ (by decide) (by simp)
    · exact index_isSome _ _ (by simp)

/-- C10. The length and serialize computations agree: for every `Int32msg` and
every `Boolmsg` the returned buffer has exactly `Len()` bytes (`HDRLEN + 4` and
`HDRLEN + 1`); for every `Bytemsg`, `Len() = HDRLEN + len(Value) + 1` and the
returned buffer is `Len()` rounded up to the alignment unit:
`Len() ≤ len(buf) < Len() + 4` with `len(buf)` a multiple of 4. -/
theorem Len_agrees_with_Serialize (native : ByteOrder) (mi : Int32msg) (my : Bytemsg)
    (mb : Boolmsg) :
    (∃ buf, mi.Serialize native = some buf ∧ (buf.length : Int) = mi.Len ∧
      mi.Len = syscall_NLA_HDRLEN + 4) ∧
    (∃ buf, mb.Serialize native = some buf ∧ (buf.length : Int) = mb.Len ∧
      mb.Len = syscall_NLA_HDRLEN + 1) ∧
    my.Len = syscall_NLA_HDRLEN + (my.Value.length : Int) + 1 ∧
    (∃ buf, my.Serialize native = some buf ∧ my.Len ≤ (buf.length : Int) ∧
      (buf.length : Int) < my.Len + 4 ∧ syscall.NLA_ALIGNTO ∣ (buf.length : Int)) := by
  refine ⟨⟨_, Int32msg_Serialize_eq native mi, ?_, rfl⟩,
    ⟨_, Boolmsg_Serialize_eq native mb, ?_, rfl⟩, rfl, ?_⟩
  · simp [enc16_length, enc32_length, Int32msg.Len, HDRLEN_eq]
  · simp [enc16_length, Boolmsg.Len, HDRLEN_eq]
  · obtain ⟨buf, hbuf, hlen⟩ := Bytemsg_Serialize_length native my
    have hp := paddedLen_spec my.Value.length
    refine ⟨buf, hbuf, ?_, ?_, ?_⟩
    · rw [hlen, Bytemsg_Len_eq]; omega
    · rw [hlen, Bytemsg_Len_eq]; omega
    · rw [hlen]; simp only [syscall.NLA_ALIGNTO]; omega

/-- C11. The concrete example, with `HDRLEN = 4` and alignment 4, in either
byte order: `Int32msg{Type: 62000, Value: 5}` serializes to an 8-byte buffer;
`Bytemsg{Type: 27283, Value: "/ns/net"}` (7 bytes) serializes to a buffer whose
length field is `4 + 7 + 1 = 12` and whose length is 12, with the payload
`/ns/net` starting at offset 4 and the zero terminator at byte 11;
`Boolmsg{Type: 27286, Value: true}` serializes to a 5-byte buffer whose last
byte is 1. -/
theorem Serialize_concrete_example (native : ByteOrder) :
    syscall_NLA_HDRLEN = 4 ∧ syscall.NLA_ALIGNTO = 4 ∧
    InitMsg.val = 62000 ∧ NsPathsAttr.val = 27283 ∧ SetgroupAttr.val = 27286 ∧
    (∃ buf, Int32msg.Serialize native ⟨InitMsg, 5⟩ = some buf ∧ buf.length = 8) ∧
    (∃ buf, Bytemsg.Serialize native ⟨NsPathsAttr, nsNetPath⟩ = some buf ∧
      nsNetPath.length = 7 ∧
      field16 native buf 0 2 = some (4 + 7 + 1) ∧ field16 native buf 0 2 = some 12 ∧
      buf.length = 12 ∧
      slice buf 4 11 = some nsNetPath ∧
      buf.drop 4 = nsNetPath ++ [0] ∧
      index buf 11 = some 0) ∧
    (∃ buf, Boolmsg.Serialize native ⟨SetgroupAttr, true⟩ = some buf ∧ buf.length = 5 ∧
      buf.getLast? = some 1 ∧ index buf 4 = some 1) := by
  refine ⟨HDRLEN_eq, rfl, rfl, rfl, rfl, ⟨_, Int32msg_Serialize_eq native _, ?_⟩,
    ⟨_, Bytemsg_Serialize_eq native _, ?_⟩, ⟨_, Boolmsg_Serialize_eq native _, ?_⟩⟩
  · simp [enc16_length, enc32_length]
  · rw [Bytemsg_Len_eq]
    cases native <;> decide
  · rw [show Boolmsg.Len ⟨SetgroupAttr, true⟩ = 5 by simp [Boolmsg.Len, HDRLEN_eq]]
    cases native <;> decide

/-- C13. The header-size constant: `(SizeofNlAttr + NLA_ALIGNTO - 1) &^
(NLA_ALIGNTO - 1)` with `SizeofNlAttr = 4` and `NLA_ALIGNTO = 4` is 4, so
`syscall_NLA_HDRLEN = 4` and the literal payload offset 4 of the three
`Serialize` functions is `HDRLEN`: the header fields fill `[0, HDRLEN)` and the
value bytes start at offset `HDRLEN`, with no gap and no overlap. -/
theorem syscall_NLA_HDRLEN_is_payload_offset (native : ByteOrder) :
    syscall.SizeofNlAttr = 4 ∧ syscall.NLA_ALIGNTO = 4 ∧
    Int.land ((4 : Int) + 4 - 1) (~~~ ((4 : Int) - 1)) = 4 ∧
    syscall_NLA_HDRLEN = 4 ∧ syscall_NLA_HDRLEN.toNat = 2 + 2 ∧
    (∀ (t : uint16) (v : uint32), ∃ buf, Int32msg.Serialize native ⟨t, v⟩ = some buf ∧
      field32 native buf syscall_NLA_HDRLEN.toNat (syscall_NLA_HDRLEN.toNat + 4)
        = some (v.val : Int) ∧
      field32 native buf 4 8 = some (v.val : Int)) ∧
    (∀ (t : uint16) (b : List byte), ∃ buf, Bytemsg.Serialize native ⟨t, b⟩ = some buf ∧
      slice buf syscall_NLA_HDRLEN.toNat (syscall_NLA_HDRLEN.toNat + b.length) = some b ∧
      slice buf 4 (4 + b.length) = some b) ∧
    (∀ (t : uint16) (val : Bool), ∃ buf, Boolmsg.Serialize native ⟨t, val⟩ = some buf ∧
      index buf syscall_NLA_HDRLEN.toNat = some (if val then 1 else 0) ∧
      index buf 4 = some (if val then 1 else 0)) := by
  have h7 : Int.land ((4 : Int) + 4 - 1) (~~~ ((4 : Int) - 1)) = 4 := by
    have := land_not_three 7
    simpa using this
  refine ⟨rfl, rfl, h7, HDRLEN_eq, by rw [HDRLEN_toNat], fun t v => ?_, fun t b => ?_,
    fun t val => ?_⟩
  · rw [HDRLEN_toNat]
    have h := field32_at native (enc16 native (uint16.ofInt (Int32msg.Len ⟨t, v⟩))
      ++ enc16 native t) [] v 4 8 (by simp [enc16_length]) rfl
    rw [List.append_nil] at h
    exact ⟨_, Int32msg_Serialize_eq native ⟨t, v⟩, h, h⟩
  · obtain ⟨hdr, pad, hbuf, -, hhdr, -, -⟩ := Bytemsg_Serialize_shape native ⟨t, b⟩
    simp only at hbuf
    rw [HDRLEN_toNat]
    have h := slice_append hdr b (List.replicate pad 0)
    rw [hhdr] at h
    exact ⟨_, hbuf, h, h⟩
  · rw [HDRLEN_toNat]
    refine ⟨_, Boolmsg_Serialize_eq native ⟨t, val⟩, ?_, ?_⟩ <;>
      cases native <;> cases val <;> rfl

/-- C14. The length field of a byte-sequence attribute is the logical length
truncated to 16 bits: for every tag, every byte sequence `b` of length `n` and
either byte order, the field `Bytemsg.Serialize` writes decodes to
`(HDRLEN + n + 1) mod 65536`; it equals `Bytemsg.Len()` if and only if
`n ≤ 65530`; the length of the allocated buffer is computed from the
untruncated `Len()`. -/
theorem Bytemsg_Serialize_length_field_truncated (native : ByteOrder) (t : uint16)
    (b : List byte) :
    ∃ buf, Bytemsg.Serialize native ⟨t, b⟩ = some buf ∧
      field16 native buf 0 2 = some ((syscall_NLA_HDRLEN + (b.length : Int) + 1) % 65536) ∧
      (field16 native buf 0 2 = some (Bytemsg.Len ⟨t, b⟩) ↔ b.length ≤ 65530) ∧
      (buf.length : Int)
        = Int.land (Bytemsg.Len ⟨t, b⟩ + syscall.NLA_ALIGNTO - 1)
            (~~~ (syscall.NLA_ALIGNTO - 1)) ∧
      Bytemsg.Len ⟨t, b⟩ ≤ (buf.length : Int) := by
  obtain ⟨buf, hbuf, hf⟩ := Bytemsg_Serialize_length_field_aux native ⟨t, b⟩
  obtain ⟨buf2, hbuf2, hlen⟩ := Bytemsg_Serialize_length native ⟨t, b⟩
  rw [hbuf] at hbuf2
  cases hbuf2
  have hp := paddedLen_spec b.length
  simp only at hlen
  refine ⟨buf, hbuf, hf, ?_, ?_, ?_⟩
  · rw [hf, Bytemsg_Len_eq]
    simp only [Option.some.injEq]
    omega
  · rw [hlen, Bytemsg_Len_eq, land_align]
    rfl
  · rw [hlen, Bytemsg_Len_eq]
    simp only
    omega

/-- C15. The encoder `Bytemsg.Serialize` is injective: for every two `Bytemsg`
values (any tags, any values of any length) and either byte order, if the two
serialized buffers are byte-identical then the tags are equal and the values
are equal.  In particular a value and the same value followed by extra zero
bytes never serialize to the same buffer.  The reason: the length of the buffer
together with its 16-bit length field determines the length of the value. -/
theorem Bytemsg_Serialize_injective (native : ByteOrder) :
    (∀ m1 m2 : Bytemsg, m1.Serialize native = m2.Serialize native →
      m1.Type_ = m2.Type_ ∧ m1.Value = m2.Value) ∧
    (∀ (t : uint16) (b : List byte) (k : Nat), 0 < k →
      Bytemsg.Serialize native ⟨t, b⟩ ≠ Bytemsg.Serialize native ⟨t, b ++ List.replicate k 0⟩) ∧
    (∀ (m1 m2 : Bytemsg) (buf1 buf2 : List byte), m1.Serialize native = some buf1 →
      m2.Serialize native = some buf2 → buf1.length = buf2.length →
      field16 native buf1 0 2 = field16 native buf2 0 2 →
      m1.Value.length = m2.Value.length) := by
  refine ⟨fun m1 m2 h => Bytemsg_Serialize_inj_aux native m1 m2 h, fun t b k hk h => ?_,
    fun m1 m2 buf1 buf2 h1 h2 hlen hf => ?_⟩
  · have hv := (Bytemsg_Serialize_inj_aux native _ _ h).2
    have := congrArg List.length hv
    simp only [List.length_append, List.length_replicate] at this
    omega
  · obtain ⟨c1, hc1, hl1⟩ := Bytemsg_Serialize_length native m1
    obtain ⟨c2, hc2, hl2⟩ := Bytemsg_Serialize_length native m2
    obtain ⟨d1, hd1, hf1⟩ := Bytemsg_Serialize_length_field_aux native m1
    obtain ⟨d2, hd2, hf2⟩ := Bytemsg_Serialize_length_field_aux native m2
    rw [h1] at hc1 hd1
    rw [h2] at hc2 hd2
    cases hc1; cases hc2; cases hd1; cases hd2
    have hp1 := paddedLen_spec m1.Value.length
    have hp2 := paddedLen_spec m2.Value.length
    rw [hf1, hf2, Bytemsg_Len_eq, Bytemsg_Len_eq] at hf
    have hf' := Option.some.inj hf
    omega

/-- C16, counterexample. Four `Boolmsg` attributes followed by an `Int32msg`
(little-endian host): the buffers start at offsets 0, 5, 10, 15 and 20 and the
concatenation ends at 28, so the `Int32msg`, an attribute concatenated after a
`Boolmsg`, starts at offset 20, which is divisible by the alignment unit. -/
theorem Serialize_concatenation_four_Boolmsg :
    ∃ bufs, serializeAnyAll .LittleEndian
        [.inr ⟨SetgroupAttr, true⟩, .inr ⟨SetgroupAttr, true⟩, .inr ⟨SetgroupAttr, true⟩,
          .inr ⟨SetgroupAttr, true⟩, .inl (.inl ⟨InitMsg, 5⟩)] = some bufs ∧
      bufs.map List.length = [5, 5, 5, 5, 8] ∧
      (List.range 6).map (startOffset bufs) = [0, 5, 10, 15, 20, 28] ∧
      syscall.NLA_ALIGNTO ∣ (startOffset bufs 4 : Int) := by
  obtain ⟨bb, hbb, hbl⟩ : ∃ bb, Boolmsg.Serialize .LittleEndian ⟨SetgroupAttr, true⟩ = some bb ∧
      bb.length = 5 :=
    ⟨_, Boolmsg_Serialize_eq .LittleEndian ⟨SetgroupAttr, true⟩, by simp [enc16_length]⟩
  obtain ⟨ib, hib, hil⟩ : ∃ ib, Int32msg.Serialize .LittleEndian ⟨InitMsg, 5⟩ = some ib ∧
      ib.length = 8 :=
    ⟨_, Int32msg_Serialize_eq .LittleEndian ⟨InitMsg, 5⟩, by simp [enc16_length, enc32_length]⟩
  refine ⟨[bb, bb, bb, bb, ib], ?_, ?_, ?_, ?_⟩
  · simp [serializeAnyAll, serializeAny, serializeAttr, hbb, hib]
  · simp [hbl, hil]
  · simp [List.range, List.range.loop, startOffset, hbl, hil]
  · simp [startOffset, hbl, syscall.NLA_ALIGNTO]
    decide

/-- C16, amended. Concatenation keeps alignment for integer and byte-sequence
attributes only.  For every finite list of `Int32msg` and `Bytemsg` values and
either byte order, every message serializes, every buffer has a length that is a
multiple of the alignment unit 4, and in the concatenation of the buffers every
attribute (and the end of the concatenation) starts at an offset divisible by 4.
A `Boolmsg` buffer has 5 bytes, which is not a multiple of 4: in a concatenation
of attributes of the three kinds, the offset at which an attribute starts is
congruent modulo 4 to the number of `Boolmsg` attributes before it, so it is
divisible by 4 if and only if that number is a multiple of 4; an attribute that
comes after one, two or three `Boolmsg` attributes starts at an unaligned
offset. -/
theorem Serialize_concatenation_offsets (native : ByteOrder) :
    (∀ msgs : List (Int32msg ⊕ Bytemsg), ∃ bufs, serializeAll native msgs = some bufs ∧
      bufs.length = msgs.length ∧
      (∀ buf ∈ bufs, syscall.NLA_ALIGNTO ∣ (buf.length : Int)) ∧
      (∀ k, k ≤ bufs.length → syscall.NLA_ALIGNTO ∣ (startOffset bufs k : Int))) ∧
    (∀ mb : Boolmsg, ∃ bb, mb.Serialize native = some bb ∧ bb.length = 5 ∧
      ¬ syscall.NLA_ALIGNTO ∣ (bb.length : Int)) ∧
    (∀ msgs : List ((Int32msg ⊕ Bytemsg) ⊕ Boolmsg), ∃ bufs,
      serializeAnyAll native msgs = some bufs ∧ bufs.length = msgs.length ∧
      ∀ k, k ≤ bufs.length →
        (startOffset bufs k : Int) % syscall.NLA_ALIGNTO
          = (boolsBefore msgs k : Int) % syscall.NLA_ALIGNTO ∧
        (syscall.NLA_ALIGNTO ∣ (startOffset bufs k : Int) ↔ 4 ∣ boolsBefore msgs k) ∧
        (boolsBefore msgs k = 1 ∨ boolsBefore msgs k = 2 ∨ boolsBefore msgs k = 3 →
          ¬ syscall.NLA_ALIGNTO ∣ (startOffset bufs k : Int))) := by
  refine ⟨fun msgs => ?_, fun mb => ?_, fun msgs => ?_⟩
  · obtain ⟨bufs, hbufs, hl, hall⟩ := serializeAll_aligned native msgs
    refine ⟨bufs, hbufs, hl, ?_, ?_⟩
    · intro buf hb
      have := hall buf hb
      simp only [syscall.NLA_ALIGNTO]
      omega
    · intro k _
      have := startOffset_aligned bufs k hall
      simp only [syscall.NLA_ALIGNTO]
      omega
  · have hb5 : (enc16 native (uint16.ofInt mb.Len) ++ enc16 native mb.Type_
        ++ [if mb.Value then (1 : byte) else 0]).length = 5 := by
      simp [enc16_length]
    refine ⟨_, Boolmsg_Serialize_eq native mb, hb5, ?_⟩
    rw [hb5]; simp only [syscall.NLA_ALIGNTO]; decide
  · obtain ⟨bufs, hbufs, hl, hoff⟩ := serializeAnyAll_offsets native msgs
    refine ⟨bufs, hbufs, hl, fun k _ => ?_⟩
    have := hoff k
    simp only [syscall.NLA_ALIGNTO]
    refine ⟨?_, ?_, ?_⟩ <;> omega

end net
